import Mathlib

/-!
Verification development for the espalomax parameter-prediction pipeline
(`espalomax/nn.py`): a shallow embedding of the GraphSage representation layer,
the Janossy pooling module and the parametrization orchestrator, followed by
theorems about their symmetry, shape and error-handling behaviour.

Arrays of the numeric framework are embedded as lists of rationals (exact
arithmetic); learned weights are explicit data; the activation function is a
parameter, exactly as `JanossyPooling.activation` is a configurable callable
in the source.
-/

namespace Espalomax

/-- A one-dimensional array of the numeric framework, with exact rational
entries. -/
abbrev Vec := List ℚ

/-- Learned parameters of one dense (affine) layer: one weight row and one
bias entry per output feature. -/
structure DenseParams where
  weight : List Vec
  bias : Vec
deriving Repr, DecidableEq

/-- Dot product of two vectors (componentwise product, summed). -/
def dot (x y : Vec) : ℚ := (List.zipWith (fun a b => a * b) x y).sum

/-- `flax.linen.Dense`: output feature j is `dot (weight j) x + bias j`. -/
def dense (p : DenseParams) (x : Vec) : Vec :=
  List.zipWith (fun w b => dot w x + b) p.weight p.bias

/-- Elementwise addition of two arrays of the same shape. -/
def vadd (x y : Vec) : Vec := List.zipWith (fun a b => a + b) x y

/-- Rectified linear unit, `jax.nn.relu`. -/
def relu (x : ℚ) : ℚ := max x 0

/-- The hidden stack built in `JanossyPooling.setup`: `depth` repetitions of a
dense layer followed by the elementwise activation, applied in sequence
(`nn.Sequential`). -/
def mlp (act : ℚ → ℚ) (layers : List DenseParams) (x : Vec) : Vec :=
  layers.foldl (fun v p => (dense p v).map act) x

/-- `IMPROPER_PERMUTATIONS = [(0, 1, 2, 3), (0, 2, 3, 1), (0, 3, 1, 2)]` from
`nn.py`. -/
def IMPROPER_PERMUTATIONS : List (List Nat) := [[0, 1, 2, 3], [0, 2, 3, 1], [0, 3, 1, 2]]

/-- The default output-parameter schema `JANOSSY_POOLING_PARAMETERS` from
`nn.py`, as an ordered association list. -/
def JANOSSY_POOLING_PARAMETERS : List (String × List (String × Nat)) :=
  [("bond", [("coefficients", 2)]), ("angle", [("coefficients", 2)]),
   ("proper", [("k", 6)]), ("improper", [("k", 6)])]

/-- `nodes[t]` for a single index tuple `t`: the embeddings of the tuple's
member atoms, in tuple order. -/
def gatherTuple (nodes : List Vec) (t : List Nat) : List Vec :=
  t.map (fun i => nodes.getD i [])

/-- `nodes[heterograph[kind]["idxs"]]`: gather embeddings for every atom of
every tuple of a kind, shaped [tuples, arity, features]. -/
def gather (nodes : List Vec) (idxs : List (List Nat)) : List (List Vec) :=
  idxs.map (gatherTuple nodes)

/-- `h.reshape(*h.shape[:-2], -1)` applied per tuple: concatenate the tuple's
atom embeddings along the feature axis. -/
def flattenTuple (h : List Vec) : Vec := h.flatten

/-- `h[..., jnp.array(permutation), :]` applied per tuple: reindex the arity
axis by a permutation. -/
def permuteTuple {α : Type} [Inhabited α] (p : List Nat) (h : List α) : List α :=
  p.map (fun i => h.getD i default)

/-- `jnp.size` of a two-dimensional array embedded as a list of rows. -/
def sizeMat (h : List Vec) : Nat := (h.map List.length).sum

/-- `jnp.size` of a three-dimensional array embedded as a list of matrices. -/
def sizeTens (h : List (List Vec)) : Nat := (h.map sizeMat).sum

/-- The learned state and configuration of a `JanossyPooling` module after
`setup`: the schema `out_features`, one hidden stack per kind, one dense head
per (kind, parameter name), and the configurable activation. -/
structure JanossyParams where
  out_features : List (String × List (String × Nat))
  hiddenStack : String → List DenseParams
  heads : String → String → DenseParams
  activation : ℚ → ℚ

/-- The symmetrized hidden vector for one tuple of a kind
(`JanossyPooling.__call__`, lines 160-172): every kind other than `improper`
gets mirror symmetry (forward plus reversed flattening through the hidden
stack, summed); `improper` sums the hidden-stack outputs over the three
permutations of `IMPROPER_PERMUTATIONS` (Python `sum` folds addition from the
left over the list). -/
def poolKindTuple (jp : JanossyParams) (kind : String) (h : List Vec) : Vec :=
  if kind ≠ "improper" then
    vadd (mlp jp.activation (jp.hiddenStack kind) (flattenTuple h))
         (mlp jp.activation (jp.hiddenStack kind) (flattenTuple h.reverse))
  else
    match IMPROPER_PERMUTATIONS.map
        (fun p => mlp jp.activation (jp.hiddenStack kind) (flattenTuple (permuteTuple p h))) with
    | [] => []
    | x :: xs => xs.foldl vadd x

/-- The intermediate `h` of `JanossyPooling.__call__` for one kind: gather the
tuple embeddings; if the gathered array is non-empty, pool each tuple;
otherwise the explicit empty placeholder `jnp.array([[]])`. -/
def pooledH (jp : JanossyParams) (kind : String) (idxs : List (List Nat))
    (nodes : List Vec) : List Vec :=
  if 0 < sizeTens (gather nodes idxs) then
    (gather nodes idxs).map (poolKindTuple jp kind)
  else [[]]

/-- The output of `JanossyPooling.__call__` for one interaction kind: the named
parameter arrays, and the `idxs` entry that the loop body copies from the input
heterograph (present exactly when the kind has at least one named parameter,
since the assignment sits inside the per-parameter loop). -/
structure KindOutput where
  params : List (String × List Vec)
  idxs : Option (List (List Nat))
deriving Repr, DecidableEq

/-- `JanossyPooling.__call__` restricted to one interaction kind. -/
def janossyKind (jp : JanossyParams) (kind : String) (idxs : List (List Nat))
    (nodes : List Vec) (pnames : List (String × Nat)) : KindOutput :=
  { params := pnames.map (fun pd =>
      (pd.1,
        if 0 < sizeMat (pooledH jp kind idxs nodes) then
          (pooledH jp kind idxs nodes).map (dense (jp.heads kind pd.1))
        else ([[]] : List Vec)))
    idxs := if pnames = [] then none else some idxs }

/-- `JanossyPooling.__call__`: iterate over the schema's kinds in order,
reading each kind's `idxs` from the input heterograph.  The heterograph is
embedded as a map from kind to its ordered tuple list (its container type
lives in `graph.py`; modelled from the spec: "mapping from interaction kind →
ordered sequence of InteractionTuple"). -/
def janossyCall (jp : JanossyParams) (hetero : String → List (List Nat))
    (nodes : List Vec) : List (String × KindOutput) :=
  jp.out_features.map (fun e => (e.1, janossyKind jp e.1 (hetero e.1) nodes e.2))

/-- The rows of `data` whose segment id equals `s`. -/
def segmentSelect (data : List Vec) (ids : List Nat) (s : Nat) : List Vec :=
  ((data.zip ids).filter (fun x => x.2 == s)).map Prod.fst

/-- jraph `segment_mean`: per segment, the componentwise sum of the rows whose
id equals the segment index, divided by the segment's row count clamped below
by one (so an empty segment yields zero). -/
def segmentMean (data : List Vec) (ids : List Nat) (num w : Nat) : List Vec :=
  (List.range num).map (fun s =>
    (List.range w).map (fun j =>
      ((segmentSelect data ids s).map (fun v => v.getD j 0)).sum
        / ((max (segmentSelect data ids s).length 1 : ℕ) : ℚ)))

/-- The homogeneous atom graph consumed by the representation module: per-atom
embeddings plus the directed edge lists. -/
structure Homograph where
  nodes : List Vec
  senders : List Nat
  receivers : List Nat

/-- `GraphSageLayer.__call__` (aggregation): the in-neighbour aggregate
`segment_mean(nodes[senders], receivers, total_num_nodes)`, with feature width
taken from the atom embeddings. -/
def sageAggregate (g : Homograph) : List Vec :=
  segmentMean (g.senders.map (fun i => g.nodes.getD i [])) g.receivers
    g.nodes.length (g.nodes.headD []).length

/-- `GraphSageLayer.__call__` (body): concatenate the aggregate with each
atom's current embedding and apply a dense layer followed by `relu`. -/
def graphSageLayer (p : DenseParams) (g : Homograph) : Homograph :=
  { g with nodes := (((sageAggregate g).zip g.nodes).map (fun x =>
      (dense p (x.1 ++ x.2)).map relu)) }

/-- `GraphSageModel`: `depth` GraphSage layers applied in sequence. -/
def graphSageModel (ps : List DenseParams) (g : Homograph) : Homograph :=
  ps.foldl (fun gr p => graphSageLayer p gr) g

/-- The input of `Parametrization.__call__`: a homograph for message passing
and a heterograph of interaction tuples. -/
structure Graph where
  homograph : Homograph
  heterograph : String → List (List Nat)

/-- `Parametrization.__call__`: run the representation on the homograph, then
Janossy pooling on the heterograph with the refreshed node embeddings.  The
representation and pooling weights are the only state, passed explicitly. -/
def parametrize (representation : Homograph → Homograph) (jp : JanossyParams)
    (g : Graph) : List (String × KindOutput) :=
  janossyCall jp g.heterograph (representation g.homograph).nodes

/-- Python substring containment `pat in s` on character lists. -/
def containsAux (pat : List Char) : List Char → Bool
  | [] => pat.isEmpty
  | c :: rest => pat.isPrefixOf (c :: rest) || containsAux pat rest

/-- Python substring containment `pat in s` on strings. -/
def strContains (s pat : String) : Bool := containsAux pat.toList s.toList

/-- `JanossyPooling.setup` head construction: a dense head per (kind,
parameter name), with bias initialised to the constant −5.0 when the parameter
name contains the substring "coefficients", and to the flax default of zeros
otherwise.  flax weight initialisation is pseudo-random and abstracted as an
argument. -/
def setupHead (winit : List Vec) (parameter : String) (dim : Nat) : DenseParams :=
  if strContains parameter "coefficients" then
    { weight := winit, bias := List.replicate dim (-5) }
  else
    { weight := winit, bias := List.replicate dim 0 }

/-- All output heads constructed by `JanossyPooling.setup` from a schema. -/
def setupHeads (winit : String → String → List Vec)
    (schema : List (String × List (String × Nat))) :
    List (String × List (String × DenseParams)) :=
  schema.map (fun e => (e.1, e.2.map (fun pd => (pd.1, setupHead (winit e.1 pd.1) pd.1 pd.2))))

/-! Algebraic facts about elementwise addition. -/

lemma vadd_comm (x y : Vec) : vadd x y = vadd y x :=
  List.zipWith_comm_of_comm _ (fun a b => add_comm a b) x y

lemma vadd_assoc (x y z : Vec) : vadd (vadd x y) z = vadd x (vadd y z) := by
  induction x generalizing y z with
  | nil => simp [vadd]
  | cons a xs ih =>
    cases y with
    | nil => simp [vadd]
    | cons b ys =>
      cases z with
      | nil => simp [vadd]
      | cons c zs =>
        simp only [vadd, List.zipWith_cons_cons, add_assoc]
        exact congrArg _ (ih ys zs)

lemma vadd_rotate (x y z : Vec) : vadd (vadd y z) x = vadd (vadd x y) z := by
  rw [vadd_comm, ← vadd_assoc]

/-! Mirror symmetry of the non-improper branch. -/

lemma poolKindTuple_reverse (jp : JanossyParams) (kind : String)
    (hk : kind ≠ "improper") (h : List Vec) :
    poolKindTuple jp kind h.reverse = poolKindTuple jp kind h := by
  simp only [poolKindTuple, if_pos hk, List.reverse_reverse]
  exact vadd_comm _ _

lemma gatherTuple_reverse (nodes : List Vec) (t : List Nat) :
    gatherTuple nodes t.reverse = (gatherTuple nodes t).reverse := by
  simp [gatherTuple]

lemma sizeMat_reverse (m : List Vec) : sizeMat m.reverse = sizeMat m := by
  simp [sizeMat, List.sum_reverse]

/-- Reversing any selection of tuples leaves the gathered size unchanged. -/
lemma sizeTens_gather_reverse_choice (nodes : List Vec) (ts ts2 : List (List Nat))
    (h : List.Forall₂ (fun t t2 => t2 = t ∨ t2 = t.reverse) ts ts2) :
    sizeTens (gather nodes ts2) = sizeTens (gather nodes ts) := by
  induction h with
  | nil => rfl
  | cons h1 _ ih =>
    rcases h1 with rfl | rfl
    · simp [gather, sizeTens] at ih ⊢
      exact ih
    · simp only [gather, sizeTens, List.map_cons, List.sum_cons] at ih ⊢
      rw [gatherTuple_reverse, sizeMat_reverse]
      exact congrArg _ ih

/-- Reversing any selection of tuples leaves the pooled rows unchanged, for
every kind on the mirror-symmetry branch. -/
lemma pooled_rows_reverse_choice (jp : JanossyParams) (kind : String)
    (hk : kind ≠ "improper") (nodes : List Vec) (ts ts2 : List (List Nat))
    (h : List.Forall₂ (fun t t2 => t2 = t ∨ t2 = t.reverse) ts ts2) :
    (gather nodes ts2).map (poolKindTuple jp kind)
      = (gather nodes ts).map (poolKindTuple jp kind) := by
  induction h with
  | nil => rfl
  | cons h1 _ ih =>
    rcases h1 with rfl | rfl
    · simp only [gather, List.map_cons] at ih ⊢
      exact congrArg _ ih
    · simp only [gather, List.map_cons] at ih ⊢
      rw [gatherTuple_reverse, poolKindTuple_reverse jp kind hk]
      exact congrArg _ ih

lemma pooledH_reverse_choice (jp : JanossyParams) (kind : String)
    (hk : kind ≠ "improper") (nodes : List Vec) (ts ts2 : List (List Nat))
    (h : List.Forall₂ (fun t t2 => t2 = t ∨ t2 = t.reverse) ts ts2) :
    pooledH jp kind ts2 nodes = pooledH jp kind ts nodes := by
  rw [pooledH, pooledH, sizeTens_gather_reverse_choice nodes ts ts2 h,
    pooled_rows_reverse_choice jp kind hk nodes ts ts2 h]

/-- The named parameter arrays of `janossyKind` depend on the tuples only
through the pooled hidden rows. -/
lemma janossyKind_params_congr (jp : JanossyParams) (kind : String)
    (ts ts2 : List (List Nat)) (nodes : List Vec) (pnames : List (String × Nat))
    (h : pooledH jp kind ts2 nodes = pooledH jp kind ts nodes) :
    (janossyKind jp kind ts2 nodes pnames).params
      = (janossyKind jp kind ts nodes pnames).params := by
  simp [janossyKind, h]

/-! The cyclic symmetry of the improper branch. -/

lemma exists_len4 {α : Type} (t : List α) (h : t.length = 4) :
    ∃ a b c d, t = [a, b, c, d] := by
  match t, h with
  | [a, b, c, d], _ => exact ⟨a, b, c, d, rfl⟩

lemma permute_id {α : Type} [Inhabited α] (a b c d : α) :
    permuteTuple [0, 1, 2, 3] [a, b, c, d] = [a, b, c, d] := rfl

lemma permute_sigma {α : Type} [Inhabited α] (a b c d : α) :
    permuteTuple [0, 2, 3, 1] [a, b, c, d] = [a, c, d, b] := rfl

lemma permute_sigma2 {α : Type} [Inhabited α] (a b c d : α) :
    permuteTuple [0, 3, 1, 2] [a, b, c, d] = [a, d, b, c] := rfl

/-- The improper branch of `poolKindTuple`, written out: the Python `sum` over
the three permuted hidden-stack outputs folds addition from the left. -/
lemma poolKindTuple_improper_eq (jp : JanossyParams) (u : List Vec) :
    poolKindTuple jp "improper" u
      = vadd (vadd
          (mlp jp.activation (jp.hiddenStack "improper")
            (flattenTuple (permuteTuple [0, 1, 2, 3] u)))
          (mlp jp.activation (jp.hiddenStack "improper")
            (flattenTuple (permuteTuple [0, 2, 3, 1] u))))
        (mlp jp.activation (jp.hiddenStack "improper")
          (flattenTuple (permuteTuple [0, 3, 1, 2] u))) := rfl

lemma improper_perm_cases (p : List Nat) (hp : p ∈ IMPROPER_PERMUTATIONS) :
    p = [0, 1, 2, 3] ∨ p = [0, 2, 3, 1] ∨ p = [0, 3, 1, 2] := by
  simpa [IMPROPER_PERMUTATIONS] using hp

lemma poolKindTuple_improper_perm (jp : JanossyParams) (p : List Nat)
    (hp : p ∈ IMPROPER_PERMUTATIONS) (u : List Vec) (hu : u.length = 4) :
    poolKindTuple jp "improper" (permuteTuple p u) = poolKindTuple jp "improper" u := by
  obtain ⟨a, b, c, d, rfl⟩ := exists_len4 u hu
  rcases improper_perm_cases p hp with rfl | rfl | rfl
  · rw [permute_id]
  · simp only [poolKindTuple_improper_eq, permute_id, permute_sigma, permute_sigma2]
    exact vadd_rotate _ _ _
  · simp only [poolKindTuple_improper_eq, permute_id, permute_sigma, permute_sigma2]
    exact (vadd_rotate _ _ _).trans (vadd_rotate _ _ _)

lemma gatherTuple_permute (nodes : List Vec) (p : List Nat)
    (hp : p ∈ IMPROPER_PERMUTATIONS) (t : List Nat) (ht : t.length = 4) :
    gatherTuple nodes (permuteTuple p t) = permuteTuple p (gatherTuple nodes t) := by
  obtain ⟨i, j, k, l, rfl⟩ := exists_len4 t ht
  rcases improper_perm_cases p hp with rfl | rfl | rfl <;> rfl

lemma sizeMat_permute (p : List Nat) (hp : p ∈ IMPROPER_PERMUTATIONS)
    (u : List Vec) (hu : u.length = 4) : sizeMat (permuteTuple p u) = sizeMat u := by
  obtain ⟨a, b, c, d, rfl⟩ := exists_len4 u hu
  rcases improper_perm_cases p hp with rfl | rfl | rfl <;>
    simp only [permute_id, permute_sigma, permute_sigma2, sizeMat, List.map_cons,
      List.map_nil, List.sum_cons, List.sum_nil] <;> omega

lemma gatherTuple_length (nodes : List Vec) (t : List Nat) :
    (gatherTuple nodes t).length = t.length := by simp [gatherTuple]

lemma pooledH_improper_perm (jp : JanossyParams) (nodes : List Vec)
    (ts ts2 : List (List Nat))
    (h : List.Forall₂ (fun t t2 => t.length = 4 ∧
      ∃ p ∈ IMPROPER_PERMUTATIONS, t2 = permuteTuple p t) ts ts2) :
    pooledH jp "improper" ts2 nodes = pooledH jp "improper" ts nodes := by
  have hsz : sizeTens (gather nodes ts2) = sizeTens (gather nodes ts) := by
    induction h with
    | nil => rfl
    | cons h1 _ ih =>
      obtain ⟨ht, p, hp, rfl⟩ := h1
      simp only [gather, sizeTens, List.map_cons, List.sum_cons] at ih ⊢
      rw [gatherTuple_permute nodes p hp _ ht,
        sizeMat_permute p hp _ (by rw [gatherTuple_length]; exact ht)]
      exact congrArg _ ih
  have hmap : (gather nodes ts2).map (poolKindTuple jp "improper")
      = (gather nodes ts).map (poolKindTuple jp "improper") := by
    clear hsz
    induction h with
    | nil => rfl
    | cons h1 _ ih =>
      obtain ⟨ht, p, hp, rfl⟩ := h1
      simp only [gather, List.map_cons] at ih ⊢
      rw [gatherTuple_permute nodes p hp _ ht,
        poolKindTuple_improper_perm jp p hp _ (by rw [gatherTuple_length]; exact ht)]
      exact congrArg _ ih
  rw [pooledH, pooledH, hsz, hmap]

/-! Non-emptiness of the hidden rows, for the shape-alignment claim. -/

lemma dense_ne_nil (p : DenseParams) (hw : p.weight ≠ []) (hb : p.bias ≠ [])
    (x : Vec) : dense p x ≠ [] := by
  simp [dense, List.zipWith_eq_nil_iff, hw, hb]

lemma mlp_ne_nil (act : ℚ → ℚ) (layers : List DenseParams)
    (hl : ∀ l ∈ layers, l.weight ≠ [] ∧ l.bias ≠ []) (x : Vec) (hx : x ≠ []) :
    mlp act layers x ≠ [] := by
  induction layers generalizing x with
  | nil => simpa [mlp] using hx
  | cons p ps ih =>
    have hp := hl p (List.mem_cons_self p ps)
    have hstep : mlp act (p :: ps) x = mlp act ps ((dense p x).map act) := rfl
    rw [hstep]
    exact ih (fun l hl2 => hl l (List.mem_cons_of_mem p hl2)) _
      (by simpa using dense_ne_nil p hp.1 hp.2 x)

lemma flattenTuple_ne_nil (u : List Vec) (v : Vec) (hv : v ∈ u) (hne : v ≠ []) :
    flattenTuple u ≠ [] := by
  simp only [flattenTuple, ne_eq, List.flatten_eq_nil_iff]
  intro hall
  exact hne (hall v hv)

lemma vadd_ne_nil (x y : Vec) (hx : x ≠ []) (hy : y ≠ []) : vadd x y ≠ [] := by
  simp [vadd, List.zipWith_eq_nil_iff, hx, hy]

lemma poolKindTuple_ne_nil (jp : JanossyParams) (kind : String)
    (hl : ∀ l ∈ jp.hiddenStack kind, l.weight ≠ [] ∧ l.bias ≠ [])
    (u : List Vec) (hu : u ≠ []) (hall : ∀ v ∈ u, v ≠ [])
    (h4 : kind = "improper" → u.length = 4) :
    poolKindTuple jp kind u ≠ [] := by
  by_cases hk : kind = "improper"
  · subst hk
    obtain ⟨a, b, c, d, rfl⟩ := exists_len4 u (h4 rfl)
    have ha : a ≠ [] := hall a (by simp)
    rw [poolKindTuple_improper_eq]
    simp only [permute_id, permute_sigma, permute_sigma2]
    refine vadd_ne_nil _ _ (vadd_ne_nil _ _ ?_ ?_) ?_ <;>
      exact mlp_ne_nil _ _ hl _ (flattenTuple_ne_nil _ a (by simp) ha)
  · obtain ⟨v, us, rfl⟩ := List.exists_cons_of_ne_nil hu
    have hv : v ≠ [] := hall v (by simp)
    simp only [poolKindTuple, if_pos hk]
    refine vadd_ne_nil _ _ ?_ ?_
    · exact mlp_ne_nil _ _ hl _ (flattenTuple_ne_nil _ v (by simp) hv)
    · exact mlp_ne_nil _ _ hl _
        (flattenTuple_ne_nil _ v (by simp [List.mem_reverse]) hv)

lemma sizeMat_pos (m : List Vec) (x : Vec) (hx : x ∈ m) (hne : x ≠ []) :
    0 < sizeMat m := by
  have hlen : 0 < x.length := List.length_pos.mpr hne
  have hle : x.length ≤ sizeMat m :=
    List.single_le_sum (by simp) _ (List.mem_map_of_mem List.length hx)
  omega

lemma sizeTens_gather_pos (nodes : List Vec) (ts : List (List Nat))
    (hts : ts ≠ []) (hvalid : ∀ t ∈ ts, t ≠ [] ∧ ∀ i ∈ t, i < nodes.length)
    (hnodes : ∀ v ∈ nodes, v ≠ []) : 0 < sizeTens (gather nodes ts) := by
  obtain ⟨t, ts0, rfl⟩ := List.exists_cons_of_ne_nil hts
  obtain ⟨ht, hidx⟩ := hvalid t (by simp)
  obtain ⟨i, t0, rfl⟩ := List.exists_cons_of_ne_nil ht
  have hi : i < nodes.length := hidx i (by simp)
  have hv : nodes.getD i [] ≠ [] := by
    rw [List.getD_eq_getElem nodes [] hi]
    exact hnodes _ (List.getElem_mem hi)
  have hpos : 0 < sizeMat (gatherTuple nodes (i :: t0)) :=
    sizeMat_pos _ (nodes.getD i []) (by simp [gatherTuple]) hv
  simp only [gather, sizeTens, List.map_cons, List.sum_cons]
  omega

/-! Concrete instances used by witnesses and counterexamples. -/

def wStack : DenseParams := { weight := [[1, 0, 0, 0]], bias := [0] }

def wHead : DenseParams := { weight := [[1]], bias := [0] }

def wJP : JanossyParams :=
  { out_features := JANOSSY_POOLING_PARAMETERS
    hiddenStack := fun _ => [wStack]
    heads := fun _ _ => wHead
    activation := fun x => x }

def wNodes : List Vec := [[1], [2], [3], [4]]

def cJP7 : JanossyParams :=
  { out_features := [("bond", [("coefficients", 2)])]
    hiddenStack := fun _ => [wStack]
    heads := fun _ _ => wHead
    activation := fun x => x }

def cHetero : String → List (List Nat) := fun k =>
  if k = "proper" then [[0, 1, 2, 3]] else if k = "bond" then [[0, 1]] else []

def cHetero2 : String → List (List Nat) := fun k =>
  if k = "bond" then [[0, 1]] else []

def wHomograph : Homograph := { nodes := wNodes, senders := [0], receivers := [1] }

def wGraph : Graph := { homograph := wHomograph, heterograph := cHetero2 }

def w8 : Homograph := { nodes := [[1], [2]], senders := [1], receivers := [0] }

/-- Claim C1, counterexample: in the code the proper-torsion branch is NOT
forward-only.  At a concrete embedding and proper tuple, the pooled parameters
equal the mirror-symmetrized value `[[5]]`, the reversed tuple gives the same
value, and that value differs from the forward-order-only result the claim
describes. -/
theorem proper_forward_only_counterexample :
    (janossyKind wJP "proper" [[0, 1, 2, 3]] wNodes [("k", 1)]).params = [("k", [[5]])] ∧
    (janossyKind wJP "proper" [[3, 2, 1, 0]] wNodes [("k", 1)]).params = [("k", [[5]])] ∧
    (janossyKind wJP "proper" [[0, 1, 2, 3]] wNodes [("k", 1)]).params
      ≠ [("k", [dense (wJP.heads "proper" "k")
          (mlp wJP.activation (wJP.hiddenStack "proper")
            (flattenTuple (gatherTuple wNodes [0, 1, 2, 3])))])] := by
  refine ⟨?_, ?_, ?_⟩ <;>
    simp [janossyKind, pooledH, gather, gatherTuple, poolKindTuple, mlp, dense, dot,
      vadd, flattenTuple, sizeTens, sizeMat, wJP, wStack, wHead, wNodes] <;>
    norm_num

/-- Claim C1, amended: the proper-torsion branch runs through the same
mirror-symmetrization as bonds and angles (`out_feature != "improper"` in the
source), so reversing any proper tuple's atom order yields bit-identical
output parameters. -/
theorem proper_reversal_invariant (jp : JanossyParams)
    (pnames : List (String × Nat)) (nodes : List Vec) (ts ts2 : List (List Nat))
    (h : List.Forall₂ (fun t t2 => t2 = t ∨ t2 = t.reverse) ts ts2) :
    (janossyKind jp "proper" ts2 nodes pnames).params
      = (janossyKind jp "proper" ts nodes pnames).params :=
  janossyKind_params_congr jp "proper" ts ts2 nodes pnames
    (pooledH_reverse_choice jp "proper" (by decide) nodes ts ts2 h)

/-- Witness for `proper_reversal_invariant` at a concrete input. -/
theorem proper_reversal_invariant_witness :
    (janossyKind wJP "proper" [[3, 2, 1, 0]] wNodes [("k", 1)]).params
      = (janossyKind wJP "proper" [[0, 1, 2, 3]] wNodes [("k", 1)]).params :=
  proper_reversal_invariant wJP [("k", 1)] wNodes [[0, 1, 2, 3]] [[3, 2, 1, 0]]
    (List.Forall₂.cons (Or.inr rfl) List.Forall₂.nil)

/-- Claim C2: for every bond or angle tuple and every per-atom embedding
array, reversing the tuple's atom order before pooling yields bit-identical
output parameters: the pooling flattens the tuple forward and reversed, runs
both through the same hidden stack, and sums the two results. -/
theorem bond_angle_reversal_invariant (jp : JanossyParams) (kind : String)
    (hk : kind = "bond" ∨ kind = "angle") (pnames : List (String × Nat))
    (nodes : List Vec) (ts ts2 : List (List Nat))
    (h : List.Forall₂ (fun t t2 => t2 = t ∨ t2 = t.reverse) ts ts2) :
    (janossyKind jp kind ts2 nodes pnames).params
      = (janossyKind jp kind ts nodes pnames).params := by
  have hk2 : kind ≠ "improper" := by rcases hk with rfl | rfl <;> decide
  exact janossyKind_params_congr jp kind ts ts2 nodes pnames
    (pooledH_reverse_choice jp kind hk2 nodes ts ts2 h)

/-- Witness for `bond_angle_reversal_invariant` at a concrete input. -/
theorem bond_angle_reversal_invariant_witness :
    (janossyKind wJP "bond" [[1, 0]] wNodes [("coefficients", 2)]).params
      = (janossyKind wJP "bond" [[0, 1]] wNodes [("coefficients", 2)]).params :=
  bond_angle_reversal_invariant wJP "bond" (Or.inl rfl) [("coefficients", 2)]
    wNodes [[0, 1]] [[1, 0]] (List.Forall₂.cons (Or.inr rfl) List.Forall₂.nil)

/-- Claim C3: for every improper tuple (arity 4) and every embedding array,
applying any of the three permutations of `IMPROPER_PERMUTATIONS` (cyclic on
the three outer atoms around position 0) before pooling yields identical
output parameters, because the pooling sums the hidden-stack outputs over
exactly these three permutations. -/
theorem improper_cyclic_invariant (jp : JanossyParams)
    (pnames : List (String × Nat)) (nodes : List Vec) (ts ts2 : List (List Nat))
    (h : List.Forall₂ (fun t t2 => t.length = 4 ∧
      ∃ p ∈ IMPROPER_PERMUTATIONS, t2 = permuteTuple p t) ts ts2) :
    (janossyKind jp "improper" ts2 nodes pnames).params
      = (janossyKind jp "improper" ts nodes pnames).params :=
  janossyKind_params_congr jp "improper" ts ts2 nodes pnames
    (pooledH_improper_perm jp nodes ts ts2 h)

/-- Witness for `improper_cyclic_invariant` at a concrete input. -/
theorem improper_cyclic_invariant_witness :
    (janossyKind wJP "improper" [[0, 2, 3, 1]] wNodes [("k", 1)]).params
      = (janossyKind wJP "improper" [[0, 1, 2, 3]] wNodes [("k", 1)]).params :=
  improper_cyclic_invariant wJP [("k", 1)] wNodes [[0, 1, 2, 3]] [[0, 2, 3, 1]]
    (List.Forall₂.cons ⟨rfl, [0, 2, 3, 1], by decide, rfl⟩ List.Forall₂.nil)

/-- Claim C4: for every kind, on a well-formed input (non-empty tuples with
in-range atom indices, non-empty atom embeddings, non-degenerate hidden
layers, arity 4 for impropers) every returned parameter array has leading
dimension equal to the kind's tuple count, and a kind with zero tuples
returns the empty placeholder `[[]]` (total size zero) for every parameter. -/
theorem shape_alignment (jp : JanossyParams) (kind : String)
    (ts : List (List Nat)) (nodes : List Vec) (pnames : List (String × Nat))
    (hvalid : ∀ t ∈ ts, t ≠ [] ∧ ∀ i ∈ t, i < nodes.length)
    (hnodes : ∀ v ∈ nodes, v ≠ [])
    (hstack : ∀ l ∈ jp.hiddenStack kind, l.weight ≠ [] ∧ l.bias ≠ [])
    (harity : kind = "improper" → ∀ t ∈ ts, t.length = 4) :
    ∀ pv ∈ (janossyKind jp kind ts nodes pnames).params,
      (ts ≠ [] → pv.2.length = ts.length) ∧
      (ts = [] → pv.2 = [[]] ∧ sizeMat pv.2 = 0) := by
  intro pv hpv
  obtain ⟨pd, hpd, rfl⟩ := List.mem_map.mp hpv
  rcases eq_or_ne ts [] with rfl | hts
  · refine ⟨fun hcon => absurd rfl hcon, fun _ => ?_⟩
    constructor <;> simp [pooledH, gather, sizeTens, sizeMat]
  · refine ⟨fun _ => ?_, fun hcon => absurd hcon hts⟩
    have hTpos : 0 < sizeTens (gather nodes ts) :=
      sizeTens_gather_pos nodes ts hts hvalid hnodes
    have hpool : pooledH jp kind ts nodes
        = (gather nodes ts).map (poolKindTuple jp kind) := by
      rw [pooledH, if_pos hTpos]
    obtain ⟨t, ts0, rfl⟩ := List.exists_cons_of_ne_nil hts
    obtain ⟨ht, hidx⟩ := hvalid t (by simp)
    have hallv : ∀ v ∈ gatherTuple nodes t, v ≠ [] := by
      intro v hv
      obtain ⟨i, hi, rfl⟩ := List.mem_map.mp hv
      have hilt := hidx i hi
      rw [List.getD_eq_getElem nodes [] hilt]
      exact hnodes _ (List.getElem_mem hilt)
    have hrow : poolKindTuple jp kind (gatherTuple nodes t) ≠ [] :=
      poolKindTuple_ne_nil jp kind hstack _ (by simp [gatherTuple, ht]) hallv
        (fun hk => by rw [gatherTuple_length]; exact harity hk t (by simp))
    have hMpos : 0 < sizeMat (pooledH jp kind (t :: ts0) nodes) := by
      rw [hpool]
      exact sizeMat_pos _ (poolKindTuple jp kind (gatherTuple nodes t))
        (List.mem_map_of_mem _ (by simp [gather])) hrow
    show (if 0 < sizeMat (pooledH jp kind (t :: ts0) nodes) then
        (pooledH jp kind (t :: ts0) nodes).map (dense (jp.heads kind pd.1))
      else ([[]] : List Vec)).length = (t :: ts0).length
    rw [if_pos hMpos, hpool]
    simp [gather]

/-- Witness for `shape_alignment` at a concrete input. -/
theorem shape_alignment_witness :
    ((janossyKind wJP "bond" [[0, 1]] wNodes [("coefficients", 2)]).params.map
      (fun pv => pv.2.length)) = [1] := by
  have hm : (("coefficients", 2) : String × Nat)
      ∈ [(("coefficients", 2) : String × Nat)] := by simp
  have h := (shape_alignment wJP "bond" [[0, 1]] wNodes [("coefficients", 2)]
      (by decide) (by decide) (by decide) (by decide) _
      (List.mem_map_of_mem _ hm)).1 (by simp)
  simpa [janossyKind] using h

/-- Claim C5: given a graph in which some schema kind has zero tuples,
`parametrize` returns normally and the output for that kind carries the empty
placeholder (a zero-size array) for every one of its parameter names. -/
theorem empty_kind_parametrize (representation : Homograph → Homograph)
    (jp : JanossyParams) (g : Graph) (kind : String) (pnames : List (String × Nat))
    (hmem : (kind, pnames) ∈ jp.out_features)
    (hempty : g.heterograph kind = []) :
    ∃ ko, (kind, ko) ∈ parametrize representation jp g ∧
      ko.params = pnames.map (fun pd => (pd.1, ([[]] : List Vec))) ∧
      ∀ pv ∈ ko.params, sizeMat pv.2 = 0 := by
  refine ⟨janossyKind jp kind (g.heterograph kind)
    (representation g.homograph).nodes pnames, ?_, ?_, ?_⟩
  · exact List.mem_map_of_mem _ hmem
  · rw [hempty]
    simp [janossyKind, pooledH, gather, sizeTens, sizeMat]
  · rw [hempty]
    intro pv hpv
    obtain ⟨pd, hpd, rfl⟩ := List.mem_map.mp hpv
    simp [pooledH, gather, sizeTens, sizeMat]

/-- Witness for `empty_kind_parametrize` at a concrete input ("angle" has no
tuples in `wGraph`). -/
theorem empty_kind_parametrize_witness :
    ∃ ko, ("angle", ko) ∈ parametrize id wJP wGraph ∧
      ko.params = [("coefficients", 2)].map
        (fun pd : String × Nat => (pd.1, ([[]] : List Vec))) ∧
      ∀ pv ∈ ko.params, sizeMat pv.2 = 0 :=
  empty_kind_parametrize id wJP wGraph "angle" [("coefficients", 2)]
    (by decide) rfl

/-- Claim C6: the forward pass is a pure function of the weights and the graph;
two calls of `parametrize` with identical weights and identical graph produce
identical output. -/
theorem parametrize_deterministic (representation : Homograph → Homograph)
    (jp : JanossyParams) (g g2 : Graph) (h : g = g2) :
    parametrize representation jp g = parametrize representation jp g2 := by
  rw [h]

/-- Witness for `parametrize_deterministic` at a concrete input. -/
theorem parametrize_deterministic_witness :
    parametrize id wJP wGraph = parametrize id wJP wGraph :=
  parametrize_deterministic id wJP wGraph wGraph rfl

/-- Claim C7, counterexample: a heterograph kind absent from the schema does
not make the pipeline fail; it is silently ignored.  `cHetero` contains a
"proper" kind that the schema of `cJP7` (bond only) lacks; the call returns
normally, the output holds exactly the schema's kinds, and the result is
identical to the call on the heterograph without the extra kind. -/
theorem schema_mismatch_counterexample :
    (janossyCall cJP7 cHetero wNodes).map Prod.fst = ["bond"] ∧
    janossyCall cJP7 cHetero wNodes = janossyCall cJP7 cHetero2 wNodes :=
  ⟨rfl, rfl⟩

/-- Claim C7, amended: a kind present in the Heterograph with no schema entry
is silently skipped, not fatal: the output always holds exactly one entry per
schema kind, and the call only reads the heterograph at schema kinds. -/
theorem schema_mismatch_ignored (jp : JanossyParams)
    (hetero hetero2 : String → List (List Nat)) (nodes : List Vec)
    (h : ∀ e ∈ jp.out_features, hetero e.1 = hetero2 e.1) :
    (janossyCall jp hetero nodes).map Prod.fst = jp.out_features.map Prod.fst ∧
    janossyCall jp hetero nodes = janossyCall jp hetero2 nodes := by
  constructor
  · rw [janossyCall, List.map_map]
    exact List.map_congr_left (fun e _ => rfl)
  · rw [janossyCall, janossyCall]
    exact List.map_congr_left (fun e he => by rw [h e he])

/-- Witness for `schema_mismatch_ignored` at a concrete input. -/
theorem schema_mismatch_ignored_witness :
    (janossyCall cJP7 cHetero wNodes).map Prod.fst
        = cJP7.out_features.map Prod.fst ∧
    janossyCall cJP7 cHetero wNodes = janossyCall cJP7 cHetero2 wNodes :=
  schema_mismatch_ignored cJP7 cHetero cHetero2 wNodes (by decide)

lemma getD_map_zip (f : Vec × Vec → Vec) (l1 l2 : List Vec) (a : Nat)
    (h1 : a < l1.length) (h2 : a < l2.length) :
    ((l1.zip l2).map f).getD a [] = f (l1.getD a [], l2.getD a []) := by
  have hz : a < (l1.zip l2).length := by rw [List.length_zip]; omega
  rw [List.getD_eq_getElem _ [] (by simpa using hz), List.getElem_map,
    List.getElem_zip, List.getD_eq_getElem l1 [] h1, List.getD_eq_getElem l2 [] h2]

lemma sageAggregate_length (g : Homograph) :
    (sageAggregate g).length = g.nodes.length := by
  simp [sageAggregate, segmentMean]

/-- Claim C8: in the mean-aggregation layer, an atom with no incoming edges
receives a zero vector as its neighbourhood aggregate (segment mean over an
empty segment is zero, not an error), and the layer's output at that atom is
the dense-plus-relu image of the zero aggregate concatenated with the atom's
own embedding. -/
theorem empty_segment_mean_zero (p : DenseParams) (g : Homograph) (a : Nat)
    (ha : a < g.nodes.length) (hrecv : a ∉ g.receivers) :
    (sageAggregate g).getD a [] = List.replicate (g.nodes.headD []).length 0 ∧
    (graphSageLayer p g).nodes.getD a []
      = (dense p (List.replicate (g.nodes.headD []).length 0
          ++ g.nodes.getD a [])).map relu := by
  have hfil : ((g.senders.map (fun i => g.nodes.getD i [])).zip g.receivers).filter
      (fun x => x.2 == a) = [] := by
    rw [List.filter_eq_nil_iff]
    intro x hx
    simp only [beq_iff_eq]
    intro hxa
    exact hrecv (hxa ▸ (List.of_mem_zip hx).2)
  have hsel : segmentSelect (g.senders.map (fun i => g.nodes.getD i []))
      g.receivers a = [] := by
    rw [segmentSelect, hfil, List.map_nil]
  have h1 : (sageAggregate g).getD a []
      = List.replicate (g.nodes.headD []).length 0 := by
    rw [List.getD_eq_getElem _ [] (by rw [sageAggregate_length]; exact ha)]
    simp only [sageAggregate, segmentMean, List.getElem_map, List.getElem_range]
    rw [hsel]
    simp [List.map_const', List.length_range]
  refine ⟨h1, ?_⟩
  have h2 : (graphSageLayer p g).nodes.getD a []
      = (fun x : Vec × Vec => (dense p (x.1 ++ x.2)).map relu)
          ((sageAggregate g).getD a [], g.nodes.getD a []) := by
    simp only [graphSageLayer]
    exact getD_map_zip _ _ _ a (by rw [sageAggregate_length]; exact ha) ha
  rw [h2, h1]

/-- Witness for `empty_segment_mean_zero` at a concrete input (atom 1 of `w8`
has no incoming edge). -/
theorem empty_segment_mean_zero_witness :
    (sageAggregate w8).getD 1 [] = List.replicate (w8.nodes.headD []).length 0 ∧
    (graphSageLayer wHead w8).nodes.getD 1 []
      = (dense wHead (List.replicate (w8.nodes.headD []).length 0
          ++ w8.nodes.getD 1 [])).map relu :=
  empty_segment_mean_zero wHead w8 1 (by decide) (by decide)

lemma forall₂_map_self {α β : Type} (f : α → β) (R : α → β → Prop) (l : List α)
    (h : ∀ x ∈ l, R x (f x)) : List.Forall₂ R l (l.map f) := by
  induction l with
  | nil => exact List.Forall₂.nil
  | cons a t ih =>
    exact List.Forall₂.cons (h a (by simp)) (ih (fun x hx => h x (by simp [hx])))

/-- Claim C9: at configuration time every head whose parameter name contains
the substring "coefficients" has its bias initialised to the constant −5.0,
and every other head keeps the flax default of zeros; instantiated on the
default schema, the bond and angle "coefficients" heads get −5 biases and the
proper and improper "k" heads get zero biases. -/
theorem coefficients_head_bias_init (winit : String → String → List Vec)
    (schema : List (String × List (String × Nat))) :
    List.Forall₂ (fun se he => he.1 = se.1 ∧ List.Forall₂ (fun pd ph =>
        ph.1 = pd.1 ∧ ph.2.bias = (if strContains pd.1 "coefficients" = true
          then List.replicate pd.2 (-5 : ℚ) else List.replicate pd.2 0))
      se.2 he.2) schema (setupHeads winit schema) ∧
    (setupHeads winit JANOSSY_POOLING_PARAMETERS).map
        (fun e => (e.1, e.2.map (fun ph => (ph.1, ph.2.bias))))
      = [("bond", [("coefficients", List.replicate 2 (-5 : ℚ))]),
         ("angle", [("coefficients", List.replicate 2 (-5 : ℚ))]),
         ("proper", [("k", List.replicate 6 (0 : ℚ))]),
         ("improper", [("k", List.replicate 6 (0 : ℚ))])] := by
  constructor
  · apply forall₂_map_self
    intro e he
    refine ⟨rfl, ?_⟩
    apply forall₂_map_self
    intro pd hpd
    refine ⟨rfl, ?_⟩
    by_cases hc : strContains pd.1 "coefficients" = true
    · simp [setupHead, hc]
    · simp [setupHead, hc]
  · rfl

/-- Claim C10: for every schema kind with at least one named parameter, the
pooling output carries an `idxs` entry equal to that kind's tuple array read
from the input heterograph (also when the kind has zero tuples); the input
heterograph itself is only read. -/
theorem idxs_passthrough (jp : JanossyParams)
    (hetero : String → List (List Nat)) (nodes : List Vec) (kind : String)
    (pnames : List (String × Nat)) (hmem : (kind, pnames) ∈ jp.out_features)
    (hne : pnames ≠ []) :
    ∃ ko, (kind, ko) ∈ janossyCall jp hetero nodes ∧
      ko.idxs = some (hetero kind) := by
  refine ⟨janossyKind jp kind (hetero kind) nodes pnames,
    List.mem_map_of_mem _ hmem, ?_⟩
  simp [janossyKind, hne]

/-- Witness for `idxs_passthrough` at a concrete input (the "angle" kind of
`cHetero2` has zero tuples, yet its `idxs` entry is present). -/
theorem idxs_passthrough_witness :
    ∃ ko, ("angle", ko) ∈ janossyCall wJP cHetero2 wNodes ∧
      ko.idxs = some (cHetero2 "angle") :=
  idxs_passthrough wJP cHetero2 wNodes "angle" [("coefficients", 2)]
    (by decide) (by decide)

end Espalomax
